import Mathlib

/-!
Verification development for the Contact & Social-Link Discovery Engine of
the YT-Channel-Finder repository.  The definitions below are a shallow
embedding of the extraction pipeline implemented in the browser-evaluated
function `extractContactInfoFromPage` (the most recent draft of the server)
and of the outreach collaborator `generatePersonalizedOutreach`.

Modelling conventions:
* JavaScript strings are Lean `String`s (lists of characters); page text,
  hrefs and captions are taken as given inputs (the DOM queries that produce
  them are the page-rendering collaborator's side).
* The browser's WHATWG URL parser (`new URL(href).hostname`) is modelled as
  an explicit parameter `parseHost : String → Option String`; `none` models
  the constructor throwing.  A small executable model `jsHostname` is
  provided for concrete evaluations; it agrees with the standard parser on
  the simple absolute URLs and junk strings used here.
* JSON.parse of a structured-data block is modelled by `Option LdBlock`:
  `none` is a block whose parse threw (the code drops it via
  `.filter(Boolean)`), `some b` is the parsed value restricted to the shape
  the code actually inspects (`Array.isArray`, the `sameAs` property, and
  whether `sameAs` is an array).
* JS truthiness on strings is `s ≠ ""`; on arrays it is always true.
-/

namespace YTFinder

/-- The fixed enumeration of platform labels of the classification table. -/
inductive Platform where
  | instagram | twitter | facebook | tiktok | linkedin | patreon | kofi
  | buymeacoffee | discord | twitch | reddit | pinterest | snapchat
  | threads | onlyfans | substack | medium | github | telegram
deriving DecidableEq, Repr

/-- Result of the `classify` function: a platform label, the silent-discard
bucket for host-site/CDN links, a generic website, or an unparseable href. -/
inductive LinkType where
  | plat (p : Platform)
  | ignore
  | website
  | other
deriving DecidableEq, Repr

/-- A `sameAs` property value: a single string or an array of strings. -/
inductive SameAsVal where
  | single (s : String)
  | multi (ss : List String)
deriving DecidableEq, Repr

/-- A JSON-LD record as far as the code inspects it: an optional `sameAs`. -/
structure LdRecord where
  sameAs : Option SameAsVal
deriving DecidableEq, Repr

/-- A parsed JSON-LD block: either a single record or an array of records. -/
inductive LdBlock where
  | one (r : LdRecord)
  | arr (rs : List LdRecord)
deriving DecidableEq, Repr

/-- The input handed to the engine: visible page text, the hrefs of generic
anchors, the hrefs of the platform-specific UI containers, the structured
data blocks (`none` = JSON.parse failure), and interactive-element captions
used by the business-inquiry heuristic. -/
structure PageSignal where
  text : String
  anchorLinks : List String
  platformLinks : List String
  structuredBlocks : List (Option LdBlock)
  buttonTexts : List String
deriving DecidableEq, Repr

/-- The engine's output record, mirroring the object literal returned by
`extractContactInfoFromPage`.  `social` is an insertion-ordered association
list modelling the JS object (string keys in insertion order). -/
structure ClassifiedResult where
  emails : List String
  social : List (Platform × String)
  websites : List String
  otherLinks : List String
  hasBusinessInquiry : Bool
  totalLinksFound : Nat
  socialLinksFound : Nat
deriving DecidableEq, Repr

/-! ### Generic string helpers (models of the JS built-ins used) -/

/-- ASCII lower-casing of one character, modelling `String.toLowerCase` on
the ASCII range (the only range the pipeline's comparisons depend on). -/
def lowerChar (c : Char) : Char :=
  if 'A' ≤ c ∧ c ≤ 'Z' then Char.ofNat (c.toNat + 32) else c

/-- Lower-case a string character-wise, modelling `s.toLowerCase()`. -/
def lowerStr (s : String) : String :=
  String.mk (s.data.map lowerChar)

/-- Does `hay` contain `needle` as a contiguous substring?  Models
`hay.includes(needle)`. -/
def hasSub : List Char → List Char → Bool
  | [], needle => needle.isEmpty
  | h :: t, needle => needle.isPrefixOf (h :: t) || hasSub t needle

/-- String-level wrapper for `hasSub`: models `hay.includes(needle)`. -/
def strIncludes (hay needle : String) : Bool :=
  hasSub hay.data needle.data

/-- Models `s.startsWith(pre)` (used for the `mailto:` attribute check). -/
def strStarts (s pre : String) : Bool :=
  pre.data.isPrefixOf s.data

/-- First-occurrence deduplication with an accumulator of already-seen
elements; models iterating a JS `Set` in insertion order. -/
def dedupFirstAux (seen : List String) : List String → List String
  | [] => []
  | x :: xs =>
    if x ∈ seen then dedupFirstAux seen xs
    else x :: dedupFirstAux (x :: seen) xs

/-- First-occurrence deduplication by exact string equality. -/
def dedupFirst (l : List String) : List String :=
  dedupFirstAux [] l

/-- The `uniq` helper of the source: `arr => [...new Set(arr.filter(Boolean))]`.
For strings, `filter(Boolean)` removes exactly the empty strings, and the
`Set` keeps the first occurrence of each remaining string. -/
def uniq (l : List String) : List String :=
  dedupFirst (l.filter (fun s => s ≠ ""))

/-! ### Link classification -/

/-- Strip one leading `www.`, modelling `hostname.replace(/^www\./, "")`. -/
def stripWww (h : String) : String :=
  if ("www.").data.isPrefixOf h.data then String.mk (h.data.drop 4) else h

/-- The `classify` arrow function of the source, with the browser URL parser
abstracted as `parseHost`.  The ordered pattern table, the ignore table and
the fall-through to `website`/`other` are transcribed rule for rule. -/
def classify (parseHost : String → Option String) (href : String) : LinkType :=
  match parseHost href with
  | none => .other
  | some hostname =>
    let host := lowerStr (stripWww hostname)
    if strIncludes host ("instagram.com") || host = ("instagr.am") then .plat .instagram
    else if strIncludes host ("twitter.com") || host = ("x.com") then .plat .twitter
    else if strIncludes host ("facebook.com") || host = ("fb.com") || host = ("fb.me") then .plat .facebook
    else if strIncludes host ("tiktok.com") then .plat .tiktok
    else if strIncludes host ("linkedin.com") then .plat .linkedin
    else if strIncludes host ("patreon.com") then .plat .patreon
    else if strIncludes host ("ko-fi.com") then .plat .kofi
    else if strIncludes host ("buymeacoffee.com") then .plat .buymeacoffee
    else if strIncludes host ("discord.gg") || strIncludes host ("discord.com") then .plat .discord
    else if strIncludes host ("twitch.tv") then .plat .twitch
    else if strIncludes host ("reddit.com") then .plat .reddit
    else if strIncludes host ("pinterest.com") then .plat .pinterest
    else if strIncludes host ("snapchat.com") then .plat .snapchat
    else if strIncludes host ("threads.net") then .plat .threads
    else if strIncludes host ("onlyfans.com") then .plat .onlyfans
    else if strIncludes host ("substack.com") then .plat .substack
    else if strIncludes host ("medium.com") then .plat .medium
    else if strIncludes host ("github.com") then .plat .github
    else if strIncludes host ("telegram.me") || host = ("t.me") then .plat .telegram
    else if strIncludes host ("youtube.com") || strIncludes host ("youtu.be")
         || strIncludes host ("ytimg.com") || strIncludes host ("googleusercontent.com")
         || strIncludes host ("ggpht.com") then .ignore
    else .website

/-- Look up a platform key in the insertion-ordered social map. -/
def lookupSocial (p : Platform) : List (Platform × String) → Option String
  | [] => none
  | (q, v) :: t => if q = p then some v else lookupSocial p t

/-- Overwrite the value stored under a key, keeping the key's position
(models assigning to an existing JS object property). -/
def setSocial (p : Platform) (href : String) (social : List (Platform × String)) :
    List (Platform × String) :=
  social.map (fun qv => if qv.1 = p then (qv.1, href) else qv)

/-- The mutable accumulator of the `uniqueLinks.forEach` loop. -/
structure ClassState where
  social : List (Platform × String)
  websites : List String
  otherLinks : List String
deriving DecidableEq, Repr

/-- One iteration of the `uniqueLinks.forEach` loop: ignored links are
skipped, websites and other links are appended, and a platform link is
stored only if the slot is absent or holds a falsy (empty) value
(`type && !social[type]`). -/
def stepLink (parseHost : String → Option String) (st : ClassState) (href : String) :
    ClassState :=
  match classify parseHost href with
  | .ignore => st
  | .website => { st with websites := st.websites ++ [href] }
  | .other => { st with otherLinks := st.otherLinks ++ [href] }
  | .plat p =>
    match lookupSocial p st.social with
    | none => { st with social := st.social ++ [(p, href)] }
    | some v => if v = "" then { st with social := setSocial p href st.social } else st

/-- The whole `uniqueLinks.forEach` loop as a fold over the link list. -/
def processLinks (parseHost : String → Option String) (links : List String) : ClassState :=
  links.foldl (stepLink parseHost) ⟨[], [], []⟩

/-! ### Structured-data (JSON-LD) harvesting -/

/-- The strings a `sameAs` value denotes: `Array.isArray(v) ? v : [v]`. -/
def sameAsList : SameAsVal → List String
  | .single s => [s]
  | .multi ss => ss

/-- JS truthiness of a `sameAs` value (`if (o.sameAs) ...`): an empty string
is falsy, every array (even empty) is truthy. -/
def sameAsTruthy : SameAsVal → Bool
  | .single s => s ≠ ""
  | .multi _ => true

/-- Links contributed by one JSON-LD record (`if (o.sameAs) ... concat`). -/
def recSameAs (r : LdRecord) : List String :=
  match r.sameAs with
  | none => []
  | some v => if sameAsTruthy v then sameAsList v else []

/-- Links contributed by one parsed JSON-LD block. -/
def blockSameAs : LdBlock → List String
  | .one r => recSameAs r
  | .arr rs => (rs.map recSameAs).flatten

/-- The `sameAsLinks` accumulation: failed parses are dropped
(`.filter(Boolean)`), surviving blocks contribute independently in order. -/
def extractSameAs (blocks : List (Option LdBlock)) : List String :=
  ((blocks.filterMap id).map blockSameAs).flatten

/-! ### Link harvesting -/

/-- The `allLinks` array: anchor hrefs (pre-filtered by `.filter(Boolean)`),
then the platform-container hrefs (likewise filtered), then the structured
data links, pushed in that order. -/
def allLinksOf (ps : PageSignal) : List String :=
  ps.anchorLinks.filter (fun s => s ≠ "") ++
    ps.platformLinks.filter (fun s => s ≠ "") ++
      extractSameAs ps.structuredBlocks

/-- `uniqueLinks`: the merged candidate list after `uniq`. -/
def harvestLinks (ps : PageSignal) : List String :=
  uniq (allLinksOf ps)

/-! ### Email extraction

Executable model of the global regex
`/[a-zA-Z0-9._%+-]+@[a-zA-Z0-9.-]+\.[a-zA-Z]{2,}/g` with the standard
backtracking semantics: leftmost match, greedy `+`/`{2,}`, scan resumes
after each match. -/

/-- Character class `[a-zA-Z0-9._%+-]` of the local part. -/
def isLocalChar (c : Char) : Bool :=
  c.isAlpha || c.isDigit || c = '.' || c = '_' || c = '%' || c = '+' || c = '-'

/-- Character class `[a-zA-Z0-9.-]` of the domain part. -/
def isDomainChar (c : Char) : Bool :=
  c.isAlpha || c.isDigit || c = '.' || c = '-'

/-- Length of the run of ASCII letters starting at index `i` of `s`
(the extent the greedy `[a-zA-Z]{2,}` would consume). -/
def lettersFrom (s : List Char) (i : Nat) : Nat :=
  ((s.drop i).takeWhile Char.isAlpha).length

/-- Backtracking of the greedy `[a-zA-Z0-9.-]+` before `\.[a-zA-Z]{2,}`:
try the dot at index `q`, `q - 1`, ..., `1` of the maximal domain run `s`
and return the largest index whose dot is followed by at least two
letters. -/
def bestDot (s : List Char) : Nat → Option Nat
  | 0 => none
  | q + 1 =>
    if s.getD (q + 1) '@' = '.' ∧ 2 ≤ lettersFrom s (q + 2) then some (q + 1)
    else bestDot s q

/-- Given the maximal run `dom` of domain characters after the `@`, the
length of the text matched by `[a-zA-Z0-9.-]+\.[a-zA-Z]{2,}`, if any. -/
def matchDomainSuffix (dom : List Char) : Option Nat :=
  match bestDot dom (dom.length - 1) with
  | none => none
  | some p => some (p + 1 + lettersFrom dom (p + 1))

/-- Attempt to match the email regex anchored at the start of `cs`;
returns the length of the (greedy) match: a nonempty run of local-part
characters, an `@`, then the greedy domain-dot-letters suffix. -/
def matchEmailAt (cs : List Char) : Option Nat :=
  let loc := cs.takeWhile isLocalChar
  let rest := cs.drop loc.length
  if loc = [] ∨ rest.headD (' ') ≠ '@' then none
  else
    let dom := rest.tail.takeWhile isDomainChar
    match matchDomainSuffix dom with
    | none => none
    | some k => some (loc.length + 1 + k)

/-- The canonical email pattern as a structural predicate: a decomposition
into a nonempty local part, `@`, a nonempty domain run, a dot and a
top-level label of at least two letters. -/
def EmailShape (cs : List Char) : Prop :=
  ∃ l d t : List Char,
    cs = l ++ '@' :: (d ++ '.' :: t) ∧ l ≠ [] ∧ (∀ c ∈ l, isLocalChar c) ∧
      d ≠ [] ∧ (∀ c ∈ d, isDomainChar c) ∧ 2 ≤ t.length ∧ ∀ c ∈ t, c.isAlpha = true

/-- Executable full-match check: the email regex, anchored at the start,
consumes the whole string. -/
def emailShapeB (s : String) : Bool :=
  matchEmailAt s.data == some s.data.length

/-- Global scan: at each position try a match; on success emit it and resume
after its end, otherwise advance one character.  `fuel` bounds the number of
steps; it is instantiated with the text length, which always suffices. -/
def scanEmailsAux : Nat → List Char → List (List Char)
  | 0, _ => []
  | _ + 1, [] => []
  | fuel + 1, c :: cs =>
    match matchEmailAt (c :: cs) with
    | some n => (c :: cs).take n :: scanEmailsAux fuel ((c :: cs).drop n)
    | none => scanEmailsAux fuel cs

/-- All matches of the email regex in `text`, in order:
models `pageText.match(emailRegex) || []`. -/
def emailMatches (text : String) : List String :=
  (scanEmailsAux text.data.length text.data).map String.mk

/-- The raw email list of the source: every match, lower-cased, duplicates
still present (`(pageText.match(emailRegex) || []).map(e => e.toLowerCase())`). -/
def emailsLowered (text : String) : List String :=
  (emailMatches text).map lowerStr

/-! ### Business-inquiry heuristic -/

/-- The fixed list of business-intent phrases of the source. -/
def businessTexts : List String :=
  ["business inquir", "business email", "business contact",
   "press inquir", "media inquir", "collaboration", "partnership",
   "sponsor", "brand deal", "work with me", "business@", "contact@"]

/-- The `hasBusinessInquiry` IIFE: phrase search over the lower-cased page
text, a `mailto:` link anywhere among the anchor hrefs, a button/anchor
caption containing one of three keywords, or at least one extracted email. -/
def hasBusinessInquiryOf (ps : PageSignal) (emails : List String) : Bool :=
  let pageTextLower := lowerStr ps.text
  let hasBusinessText := businessTexts.any (fun t => strIncludes pageTextLower t)
  let mailtoLinks := ps.anchorLinks.any (fun h => strStarts h ("mailto:"))
  let businessButtons := ps.buttonTexts.any (fun cap =>
    let t := lowerStr cap
    strIncludes t ("business") || strIncludes t ("inquiry") || strIncludes t ("contact"))
  hasBusinessText || mailtoLinks || businessButtons || decide (0 < emails.length)

/-! ### The whole engine -/

/-- Shallow embedding of `extractContactInfoFromPage` (the function run via
`page.evaluate`), parametric in the browser URL parser. -/
def extractContactInfoFromPage (parseHost : String → Option String) (ps : PageSignal) :
    ClassifiedResult :=
  let emails := emailsLowered ps.text
  let hasBiz := hasBusinessInquiryOf ps emails
  let uniqueLinks := harvestLinks ps
  let st := processLinks parseHost uniqueLinks
  { emails := uniq emails
    social := st.social
    websites := uniq st.websites
    otherLinks := uniq st.otherLinks
    hasBusinessInquiry := hasBiz
    totalLinksFound := uniqueLinks.length
    socialLinksFound := st.social.length }

/-! ### A concrete model of the browser URL parser -/

/-- Consume an alphabetic scheme up to a literal `://` and return what
follows, or `none` if the string is not of that shape. -/
def dropToHost : List Char → Option (List Char)
  | [] => none
  | ':' :: '/' :: '/' :: rest => some rest
  | c :: rest => if c.isAlpha then dropToHost rest else none

/-- Simplified executable model of `new URL(href).hostname`, adequate for
the absolute `scheme://host/...` URLs and the junk strings used in the
concrete evaluations below: the hostname is the nonempty run of characters
after `://` up to the first delimiter; anything else fails to parse. -/
def jsHostname (href : String) : Option String :=
  match href.data with
  | [] => none
  | c :: rest =>
    if c.isAlpha then
      match dropToHost (c :: rest) with
      | none => none
      | some afterScheme =>
        let host := afterScheme.takeWhile
          (fun ch => ch ≠ '/' ∧ ch ≠ '?' ∧ ch ≠ '#' ∧ ch ≠ ':' ∧ ch ≠ '\\' ∧ ch ≠ '@')
        if host.isEmpty then none else some (String.mk host)
    else none

/-! ### The outreach collaborator -/

/-- A recent video as passed to the outreach collaborator. -/
structure Video where
  title : String
  description : String
deriving DecidableEq, Repr

/-- The channel data argument of `generatePersonalizedOutreach`.  The server
passes `ownerName || ""`, so absence is the empty string. -/
structure ChannelData where
  channelName : String
  description : String
  recentVideos : List Video
  ownerName : String
deriving DecidableEq, Repr

/-- The `{subjectLine, firstLine}` record returned by the collaborator. -/
structure Outreach where
  subjectLine : String
  firstLine : String
deriving DecidableEq, Repr

/-- Outcome of the upstream language-model call: `failure` covers a thrown
request error and an unparseable JSON response (both land in the same
`catch`); `success` carries the two optional fields of the parsed JSON. -/
inductive UpstreamOutcome where
  | failure
  | success (subjectLine firstLine : Option String)
deriving DecidableEq, Repr

/-- `s.split(" ")` of JS: split on every single space, keeping empty
pieces. -/
def splitSp : List Char → List (List Char)
  | [] => [[]]
  | ' ' :: t => [] :: splitSp t
  | c :: t =>
    match splitSp t with
    | [] => [[c]]
    | w :: ws => (c :: w) :: ws

/-- The words of a string under `s.split(" ")`. -/
def wordsOf (s : String) : List String :=
  (splitSp s.data).map String.mk

/-- Rejoin words with single spaces (`arr.join(" ")`). -/
def joinSp : List String → String
  | [] => ""
  | [w] => w
  | w :: ws => w ++ (" ") ++ joinSp ws

/-- `s.substring(0, n)` of JS. -/
def strTake (s : String) (n : Nat) : String :=
  String.mk (s.data.take n)

/-- The first name used by the collaborator:
`ownerName || (channelName ? channelName.split(" ")[0] : "there")`. -/
def firstNameOf (d : ChannelData) : String :=
  if d.ownerName ≠ "" then d.ownerName
  else if d.channelName ≠ "" then (wordsOf d.channelName).headD ""
  else ("there")

/-- The deterministic templated fallback built in the `catch` block of
`generatePersonalizedOutreach`: subject from the first two words of the
first recent-video title (or the channel name's first word), first line from
the first three words of that title and the first name. -/
def fallbackOutreach (d : ChannelData) : Outreach :=
  match d.recentVideos with
  | [] =>
    { subjectLine := strTake (("Your ") ++ (wordsOf d.channelName).headD "" ++ (" content")) 50
      firstLine := ("Hey ") ++ firstNameOf d ++
        (", came across your channel and noticed that you create interesting content in your niche...") }
  | v :: _ =>
    { subjectLine := strTake (("Your ") ++ joinSp ((wordsOf v.title).take 2) ++ (" video")) 50
      firstLine := ("Hey ") ++ firstNameOf d ++
        (", watched your recent video about ") ++ joinSp ((wordsOf v.title).take 3) ++
        (", and noticed that you have a unique approach to your content...") }

/-- Shallow embedding of `generatePersonalizedOutreach`.  `apiKey` is the
resolved credential (`openaiApiKey || process.env.OPENAI_API_KEY`, so `""`
means none is configured); `upstream` is the outcome of the external
language-model call, which is only consulted when a key is configured. -/
def generatePersonalizedOutreach (apiKey : String) (d : ChannelData)
    (upstream : UpstreamOutcome) : Outreach :=
  if apiKey = "" then { subjectLine := "", firstLine := "" }
  else
    match upstream with
    | .failure => fallbackOutreach d
    | .success sl fl => { subjectLine := sl.getD "", firstLine := fl.getD "" }

/-! ### Concrete inputs used for evaluations -/

/-- A page with one unparseable href and one plain website link. -/
def psMixed : PageSignal :=
  { text := ""
    anchorLinks := ["not a url", "https://example.com"]
    platformLinks := []
    structuredBlocks := []
    buttonTexts := [] }

/-- A page with one website link. -/
def psOne : PageSignal :=
  { text := ""
    anchorLinks := ["https://example.com"]
    platformLinks := []
    structuredBlocks := []
    buttonTexts := [] }

/-- The same page plus a host-site link that is silently ignored. -/
def psTwo : PageSignal :=
  { text := ""
    anchorLinks := ["https://example.com", "https://youtube.com/watch"]
    platformLinks := []
    structuredBlocks := []
    buttonTexts := [] }

/-- A page whose three link sources overlap and hold a trailing-slash
variant. -/
def psDup : PageSignal :=
  { text := ""
    anchorLinks := ["https://a.com", "https://a.com/"]
    platformLinks := ["https://a.com"]
    structuredBlocks := [some (LdBlock.one { sameAs := some (SameAsVal.multi
      ["https://b.com", "https://a.com/"]) })]
    buttonTexts := [] }

/-- A sample channel for exercising the outreach collaborator. -/
def sampleChannel : ChannelData :=
  { channelName := "Tech Reviews"
    description := ""
    recentVideos := [{ title := "My Dubai Vlog", description := "travel" }]
    ownerName := "" }

/-! ## Library of facts about the helpers -/

theorem mem_dedupFirstAux {seen : List String} {l : List String} {x : String} :
    x ∈ dedupFirstAux seen l ↔ x ∈ l ∧ x ∉ seen := by
  induction l generalizing seen with
  | nil => simp [dedupFirstAux]
  | cons y ys ih =>
    by_cases hy : y ∈ seen
    · simp only [dedupFirstAux, if_pos hy, ih, List.mem_cons]
      constructor
      · rintro ⟨hx, hs⟩
        exact ⟨Or.inr hx, hs⟩
      · rintro ⟨rfl | hx, hs⟩
        · exact absurd hy hs
        · exact ⟨hx, hs⟩
    · simp only [dedupFirstAux, if_neg hy, List.mem_cons, ih, List.mem_cons]
      constructor
      · rintro (rfl | ⟨hx, hs⟩)
        · exact ⟨Or.inl rfl, hy⟩
        · exact ⟨Or.inr hx, fun hxs => hs (Or.inr hxs)⟩
      · rintro ⟨rfl | hx, hs⟩
        · exact Or.inl rfl
        · by_cases hxy : x = y
          · exact Or.inl hxy
          · exact Or.inr ⟨hx, fun h => h.elim hxy hs⟩

theorem nodup_dedupFirstAux (seen : List String) (l : List String) :
    (dedupFirstAux seen l).Nodup := by
  induction l generalizing seen with
  | nil => simp [dedupFirstAux]
  | cons y ys ih =>
    by_cases hy : y ∈ seen
    · simpa [dedupFirstAux, if_pos hy] using ih seen
    · simp only [dedupFirstAux, if_neg hy, List.nodup_cons]
      refine ⟨fun hmem => ?_, ih (y :: seen)⟩
      exact (mem_dedupFirstAux.mp hmem).2 (List.mem_cons_self y seen)

theorem dedupFirstAux_sublist (seen : List String) (l : List String) :
    (dedupFirstAux seen l).Sublist l := by
  induction l generalizing seen with
  | nil => simp [dedupFirstAux]
  | cons y ys ih =>
    by_cases hy : y ∈ seen
    · simpa [dedupFirstAux, if_pos hy] using (ih seen).cons y
    · simpa [dedupFirstAux, if_neg hy] using (ih (y :: seen)).cons₂ y

theorem dedupFirstAux_of_nodup {seen : List String} {l : List String}
    (hn : l.Nodup) (hs : ∀ x ∈ l, x ∉ seen) : dedupFirstAux seen l = l := by
  induction l generalizing seen with
  | nil => simp [dedupFirstAux]
  | cons y ys ih =>
    have hy : y ∉ seen := hs y (List.mem_cons_self y ys)
    simp only [dedupFirstAux, if_neg hy]
    congr 1
    refine ih (List.nodup_cons.mp hn).2 ?_
    intro x hx
    simp only [List.mem_cons, not_or]
    exact ⟨fun hxy => (List.nodup_cons.mp hn).1 (hxy ▸ hx), hs x (List.mem_cons_of_mem _ hx)⟩

theorem mem_uniq {l : List String} {x : String} :
    x ∈ uniq l ↔ x ∈ l ∧ x ≠ "" := by
  simp only [uniq, dedupFirst, mem_dedupFirstAux, List.mem_filter, List.not_mem_nil,
    not_false_iff, and_true, decide_eq_true_eq]

theorem nodup_uniq (l : List String) : (uniq l).Nodup :=
  nodup_dedupFirstAux [] _

theorem uniq_sublist (l : List String) : (uniq l).Sublist l :=
  (dedupFirstAux_sublist [] _).trans (List.filter_sublist l)

theorem uniq_eq_dedupFirst {l : List String} (h : ∀ x ∈ l, x ≠ "") :
    uniq l = dedupFirst l := by
  unfold uniq
  congr 1
  rw [List.filter_eq_self]
  intro a ha
  exact decide_eq_true (h a ha)

theorem uniq_eq_self {l : List String} (hn : l.Nodup) (h : ∀ x ∈ l, x ≠ "") :
    uniq l = l := by
  rw [uniq_eq_dedupFirst h]
  exact dedupFirstAux_of_nodup hn (by simp)

theorem uniq_eq_nil_iff {l : List String} : uniq l = [] ↔ ∀ x ∈ l, x = "" := by
  rw [List.eq_nil_iff_forall_not_mem]
  constructor
  · intro h x hx
    by_contra hne
    exact h x (mem_uniq.mpr ⟨hx, hne⟩)
  · intro h x hx
    obtain ⟨hmem, hne⟩ := mem_uniq.mp hx
    exact hne (h x hmem)

theorem uniq_middle_empty (a b : List String) :
    uniq (a ++ ("") :: b) = uniq (a ++ b) := by
  unfold uniq
  congr 1
  simp [List.filter_append]

/-! ### Substring and lower-casing facts -/

theorem hasSub_iff {hay needle : List Char} :
    hasSub hay needle = true ↔ needle <:+: hay := by
  induction hay with
  | nil =>
    simp only [hasSub, List.isEmpty_iff, List.infix_nil]
  | cons h t ih =>
    simp only [hasSub, Bool.or_eq_true, List.isPrefixOf_iff_prefix, ih,
      List.infix_cons_iff]

theorem strStarts_iff {s pre : String} :
    strStarts s pre = true ↔ pre.data <+: s.data := by
  simp [strStarts, List.isPrefixOf_iff_prefix]

theorem strIncludes_iff {hay needle : String} :
    strIncludes hay needle = true ↔ needle.data <:+: hay.data := by
  simp [strIncludes, hasSub_iff]

theorem char_le_iff_toNat {a b : Char} : a ≤ b ↔ a.toNat ≤ b.toNat := by
  rw [Char.le_def, UInt32.le_def]
  exact Iff.rfl

theorem lowerChar_upper_toNat {c : Char} (h : 65 ≤ c.toNat ∧ c.toNat ≤ 90) :
    (lowerChar c).toNat = c.toNat + 32 := by
  have hc : 'A' ≤ c ∧ c ≤ 'Z' := by
    exact ⟨char_le_iff_toNat.mpr h.1, char_le_iff_toNat.mpr h.2⟩
  unfold lowerChar
  rw [if_pos hc]
  unfold Char.ofNat
  rw [dif_pos (Or.inl (by omega))]
  rfl

theorem lowerChar_not_upper {c : Char} (h : ¬(65 ≤ c.toNat ∧ c.toNat ≤ 90)) :
    lowerChar c = c := by
  unfold lowerChar
  rw [if_neg]
  intro hc
  exact h ⟨char_le_iff_toNat.mp hc.1, char_le_iff_toNat.mp hc.2⟩

theorem lowerChar_toNat (c : Char) :
    (lowerChar c).toNat =
      if 65 ≤ c.toNat ∧ c.toNat ≤ 90 then c.toNat + 32 else c.toNat := by
  by_cases h : 65 ≤ c.toNat ∧ c.toNat ≤ 90
  · rw [if_pos h, lowerChar_upper_toNat h]
  · rw [if_neg h, lowerChar_not_upper h]

theorem lowerChar_lowerChar (c : Char) : lowerChar (lowerChar c) = lowerChar c := by
  by_cases h : 65 ≤ c.toNat ∧ c.toNat ≤ 90
  · apply lowerChar_not_upper
    rw [lowerChar_upper_toNat h]
    omega
  · rw [lowerChar_not_upper h, lowerChar_not_upper h]

theorem lowerStr_lowerStr (s : String) : lowerStr (lowerStr s) = lowerStr s := by
  simp [lowerStr, Function.comp_def, lowerChar_lowerChar]

theorem uint32_le_iff_toNat {a b : UInt32} : a ≤ b ↔ a.toNat ≤ b.toNat := by
  rw [UInt32.le_def]
  exact Iff.rfl

theorem char_isLower_iff {c : Char} : c.isLower = true ↔ 97 ≤ c.toNat ∧ c.toNat ≤ 122 := by
  simp only [Char.isLower, Bool.and_eq_true, decide_eq_true_eq, ge_iff_le,
    uint32_le_iff_toNat]
  exact Iff.rfl

theorem char_isUpper_iff {c : Char} : c.isUpper = true ↔ 65 ≤ c.toNat ∧ c.toNat ≤ 90 := by
  simp only [Char.isUpper, Bool.and_eq_true, decide_eq_true_eq, ge_iff_le,
    uint32_le_iff_toNat]
  exact Iff.rfl

theorem isAlpha_lowerChar {c : Char} (h : c.isAlpha = true) :
    (lowerChar c).isAlpha = true := by
  by_cases hu : 65 ≤ c.toNat ∧ c.toNat ≤ 90
  · have : (lowerChar c).isLower = true := by
      rw [char_isLower_iff, lowerChar_upper_toNat hu]
      omega
    simp [Char.isAlpha, this]
  · rwa [lowerChar_not_upper hu]

theorem isLocalChar_lowerChar {c : Char} (h : isLocalChar c = true) :
    isLocalChar (lowerChar c) = true := by
  by_cases hu : 65 ≤ c.toNat ∧ c.toNat ≤ 90
  · have ha : (lowerChar c).isAlpha = true := by
      have : (lowerChar c).isLower = true := by
        rw [char_isLower_iff, lowerChar_upper_toNat hu]
        omega
      simp [Char.isAlpha, this]
    simp [isLocalChar, ha]
  · rwa [lowerChar_not_upper hu]

theorem isDomainChar_lowerChar {c : Char} (h : isDomainChar c = true) :
    isDomainChar (lowerChar c) = true := by
  by_cases hu : 65 ≤ c.toNat ∧ c.toNat ≤ 90
  · have ha : (lowerChar c).isAlpha = true := by
      have : (lowerChar c).isLower = true := by
        rw [char_isLower_iff, lowerChar_upper_toNat hu]
        omega
      simp [Char.isAlpha, this]
    simp [isDomainChar, ha]
  · rwa [lowerChar_not_upper hu]

/-! ### Facts about the classification loop -/

theorem stepLink_websites (f : String → Option String) (st : ClassState) (href : String) :
    (stepLink f st href).websites =
      if classify f href = LinkType.website then st.websites ++ [href] else st.websites := by
  unfold stepLink
  cases classify f href with
  | website => simp
  | ignore => simp
  | other => simp
  | plat p =>
    cases hl : lookupSocial p st.social with
    | none => simp [hl]
    | some v => by_cases hv : v = "" <;> simp [hl, hv]

theorem stepLink_otherLinks (f : String → Option String) (st : ClassState) (href : String) :
    (stepLink f st href).otherLinks =
      if classify f href = LinkType.other then st.otherLinks ++ [href] else st.otherLinks := by
  unfold stepLink
  cases classify f href with
  | website => simp
  | ignore => simp
  | other => simp
  | plat p =>
    cases hl : lookupSocial p st.social with
    | none => simp [hl]
    | some v => by_cases hv : v = "" <;> simp [hl, hv]

theorem stepLink_social_mem {f : String → Option String} {st : ClassState} {href : String}
    {qv : Platform × String} (h : qv ∈ (stepLink f st href).social) :
    qv ∈ st.social ∨ (qv.2 = href ∧ classify f href = LinkType.plat qv.1) := by
  unfold stepLink at h
  cases hc : classify f href with
  | website => simp only [hc] at h; exact Or.inl h
  | ignore => simp only [hc] at h; exact Or.inl h
  | other => simp only [hc] at h; exact Or.inl h
  | plat p =>
    simp only [hc] at h
    cases hl : lookupSocial p st.social with
    | none =>
      simp only [hl, List.mem_append, List.mem_singleton] at h
      rcases h with h | rfl
      · exact Or.inl h
      · exact Or.inr ⟨rfl, rfl⟩
    | some v =>
      simp only [hl] at h
      by_cases hv : v = ""
      · rw [if_pos hv] at h
        simp only [setSocial, List.mem_map] at h
        obtain ⟨ab, hab, heq⟩ := h
        by_cases hk : ab.1 = p
        · rw [if_pos hk] at heq
          subst heq
          exact Or.inr ⟨rfl, by rw [hk]⟩
        · rw [if_neg hk] at heq
          exact Or.inl (heq ▸ hab)
      · rw [if_neg hv] at h
        exact Or.inl h

theorem foldl_stepLink_websites (f : String → Option String) (links : List String)
    (st : ClassState) :
    ((links.foldl (stepLink f) st)).websites =
      st.websites ++ links.filter (fun h => decide (classify f h = LinkType.website)) := by
  induction links generalizing st with
  | nil => simp
  | cons x xs ih =>
    rw [List.foldl_cons, ih, stepLink_websites]
    by_cases hx : classify f x = LinkType.website
    · rw [if_pos hx, List.filter_cons, if_pos (by simpa using hx), List.append_assoc]
      simp
    · rw [if_neg hx, List.filter_cons, if_neg (by simpa using hx)]

theorem foldl_stepLink_otherLinks (f : String → Option String) (links : List String)
    (st : ClassState) :
    ((links.foldl (stepLink f) st)).otherLinks =
      st.otherLinks ++ links.filter (fun h => decide (classify f h = LinkType.other)) := by
  induction links generalizing st with
  | nil => simp
  | cons x xs ih =>
    rw [List.foldl_cons, ih, stepLink_otherLinks]
    by_cases hx : classify f x = LinkType.other
    · rw [if_pos hx, List.filter_cons, if_pos (by simpa using hx), List.append_assoc]
      simp
    · rw [if_neg hx, List.filter_cons, if_neg (by simpa using hx)]

theorem foldl_stepLink_social_mem {f : String → Option String} {links : List String}
    {st : ClassState} {qv : Platform × String}
    (h : qv ∈ ((links.foldl (stepLink f) st)).social) :
    qv ∈ st.social ∨ (qv.2 ∈ links ∧ classify f qv.2 = LinkType.plat qv.1) := by
  induction links generalizing st with
  | nil => exact Or.inl h
  | cons x xs ih =>
    rw [List.foldl_cons] at h
    rcases ih h with h1 | ⟨h1, h2⟩
    · rcases stepLink_social_mem h1 with h2 | ⟨h2, h3⟩
      · exact Or.inl h2
      · exact Or.inr ⟨by rw [h2]; exact List.mem_cons_self x xs, by rw [h2]; exact h3⟩
    · exact Or.inr ⟨List.mem_cons_of_mem x h1, h2⟩

theorem lookupSocial_append_single (p q : Platform) (v : String)
    (l : List (Platform × String)) :
    lookupSocial p (l ++ [(q, v)]) =
      match lookupSocial p l with
      | some w => some w
      | none => if q = p then some v else none := by
  induction l with
  | nil => simp [lookupSocial]
  | cons ab t ih =>
    obtain ⟨a, b⟩ := ab
    by_cases hk : a = p
    · simp [lookupSocial, hk]
    · simpa [lookupSocial, hk] using ih

theorem lookupSocial_setSocial_ne {p q : Platform} (hne : q ≠ p) (href : String)
    (l : List (Platform × String)) :
    lookupSocial q (setSocial p href l) = lookupSocial q l := by
  induction l with
  | nil => simp [setSocial, lookupSocial]
  | cons ab t ih =>
    obtain ⟨a, b⟩ := ab
    simp only [setSocial, List.map_cons]
    by_cases hk : a = p
    · rw [if_pos hk]
      have haq : a ≠ q := fun h => hne (by rw [← h]; exact hk)
      simp only [lookupSocial]
      rw [if_neg haq, if_neg haq]
      simpa [setSocial] using ih
    · rw [if_neg hk]
      simp only [lookupSocial]
      by_cases haq : a = q
      · rw [if_pos haq, if_pos haq]
      · rw [if_neg haq, if_neg haq]
        simpa [setSocial] using ih

theorem lookupSocial_eq_none_iff {p : Platform} {l : List (Platform × String)} :
    lookupSocial p l = none ↔ p ∉ l.map Prod.fst := by
  induction l with
  | nil => simp [lookupSocial]
  | cons ab t ih =>
    obtain ⟨a, b⟩ := ab
    by_cases hk : a = p
    · simp [lookupSocial, hk]
    · simp only [lookupSocial, if_neg hk, List.map_cons, List.mem_cons, ih]
      constructor
      · rintro hnone (h | h)
        · exact hk h.symm
        · exact hnone h
      · intro h hm
        exact h (Or.inr hm)

theorem setSocial_keys (p : Platform) (href : String) (l : List (Platform × String)) :
    (setSocial p href l).map Prod.fst = l.map Prod.fst := by
  induction l with
  | nil => simp [setSocial]
  | cons ab t ih =>
    obtain ⟨a, b⟩ := ab
    by_cases hk : a = p
    · simpa [setSocial, hk] using ih
    · simpa [setSocial, hk] using ih

theorem stepLink_keys_nodup {f : String → Option String} {st : ClassState} {href : String}
    (h : (st.social.map Prod.fst).Nodup) :
    ((stepLink f st href).social.map Prod.fst).Nodup := by
  unfold stepLink
  cases hc : classify f href with
  | website => simp only [hc]; exact h
  | ignore => simp only [hc]; exact h
  | other => simp only [hc]; exact h
  | plat p =>
    simp only [hc]
    cases hl : lookupSocial p st.social with
    | none =>
      simp only [hl, List.map_append, List.map_cons, List.map_nil]
      rw [List.nodup_append]
      refine ⟨h, List.nodup_singleton p, ?_⟩
      intro a ha hb
      simp only [List.mem_singleton] at hb
      subst hb
      exact lookupSocial_eq_none_iff.mp hl ha
    | some v =>
      simp only [hl]
      by_cases hv : v = ""
      · rw [if_pos hv]
        simpa [setSocial_keys] using h
      · rw [if_neg hv]
        exact h

theorem foldl_stepLink_keys_nodup {f : String → Option String} {links : List String}
    {st : ClassState} (h : (st.social.map Prod.fst).Nodup) :
    (((links.foldl (stepLink f) st)).social.map Prod.fst).Nodup := by
  induction links generalizing st with
  | nil => exact h
  | cons x xs ih =>
    rw [List.foldl_cons]
    exact ih (stepLink_keys_nodup h)

theorem lookup_foldl_stepLink (f : String → Option String) (p : Platform)
    (links : List String) (st : ClassState)
    (hlinks : ∀ x ∈ links, x ≠ "")
    (hst : ∀ v, lookupSocial p st.social = some v → v ≠ "") :
    lookupSocial p ((links.foldl (stepLink f) st)).social =
      (lookupSocial p st.social).or
        (links.find? (fun h => decide (classify f h = LinkType.plat p))) := by
  induction links generalizing st with
  | nil => simp
  | cons x xs ih =>
    have hx : x ≠ "" := hlinks x (List.mem_cons_self x xs)
    have hxs : ∀ y ∈ xs, y ≠ "" := fun y hy => hlinks y (List.mem_cons_of_mem x hy)
    rw [List.foldl_cons, List.find?_cons]
    by_cases hc : classify f x = LinkType.plat p
    · simp only [decide_eq_true hc]
      cases hl : lookupSocial p st.social with
      | none =>
        have hstep : lookupSocial p (stepLink f st x).social = some x := by
          unfold stepLink
          simp only [hc, hl]
          rw [lookupSocial_append_single, hl]
          simp
        rw [ih (stepLink f st x) hxs
          (fun v hv => by rw [hstep] at hv; injection hv with h2; exact h2 ▸ hx)]
        rw [hstep]
        simp
      | some v =>
        have hv : v ≠ "" := hst v hl
        have hstep : stepLink f st x = st := by
          unfold stepLink
          simp only [hc, hl, if_neg hv]
        rw [hstep, ih st hxs hst, hl]
        simp
    · have hpred : decide (classify f x = LinkType.plat p) = false := by
        simp [hc]
      simp only [hpred]
      have hstep : lookupSocial p (stepLink f st x).social = lookupSocial p st.social := by
        unfold stepLink
        cases hcx : classify f x with
        | website => simp only [hcx]
        | ignore => simp only [hcx]
        | other => simp only [hcx]
        | plat q =>
          have hq : q ≠ p := by
            intro hqp
            exact hc (by rw [hcx, hqp])
          simp only [hcx]
          cases hl : lookupSocial q st.social with
          | none =>
            simp only [hl]
            rw [lookupSocial_append_single, if_neg hq]
            cases lookupSocial p st.social <;> rfl
          | some v =>
            simp only [hl]
            by_cases hv : v = ""
            · rw [if_pos hv]
              exact lookupSocial_setSocial_ne (fun h => hq h.symm) x st.social
            · rw [if_neg hv]
      rw [ih (stepLink f st x) hxs (fun v hv => hst v (hstep ▸ hv)), hstep]

/-! ### The processed state and the engine's fields -/

theorem extract_eq (f : String → Option String) (ps : PageSignal) :
    extractContactInfoFromPage f ps =
      { emails := uniq (emailsLowered ps.text)
        social := (processLinks f (harvestLinks ps)).social
        websites := uniq ((processLinks f (harvestLinks ps)).websites)
        otherLinks := uniq ((processLinks f (harvestLinks ps)).otherLinks)
        hasBusinessInquiry := hasBusinessInquiryOf ps (emailsLowered ps.text)
        totalLinksFound := (harvestLinks ps).length
        socialLinksFound := (processLinks f (harvestLinks ps)).social.length } := rfl

theorem processLinks_websites (f : String → Option String) (links : List String) :
    (processLinks f links).websites =
      links.filter (fun h => decide (classify f h = LinkType.website)) := by
  unfold processLinks
  rw [foldl_stepLink_websites]
  rfl

theorem processLinks_otherLinks (f : String → Option String) (links : List String) :
    (processLinks f links).otherLinks =
      links.filter (fun h => decide (classify f h = LinkType.other)) := by
  unfold processLinks
  rw [foldl_stepLink_otherLinks]
  rfl

theorem processLinks_social_mem {f : String → Option String} {links : List String}
    {qv : Platform × String} (h : qv ∈ (processLinks f links).social) :
    qv.2 ∈ links ∧ classify f qv.2 = LinkType.plat qv.1 := by
  rcases foldl_stepLink_social_mem h with h1 | h1
  · simp at h1
  · exact h1

theorem processLinks_keys_nodup (f : String → Option String) (links : List String) :
    ((processLinks f links).social.map Prod.fst).Nodup :=
  foldl_stepLink_keys_nodup (by simp)

theorem processLinks_lookup (f : String → Option String) (p : Platform)
    (links : List String) (h : ∀ x ∈ links, x ≠ "") :
    lookupSocial p (processLinks f links).social =
      links.find? (fun h => decide (classify f h = LinkType.plat p)) := by
  unfold processLinks
  rw [lookup_foldl_stepLink f p links _ h (by intro v hv; simp [lookupSocial] at hv)]
  simp [lookupSocial]

theorem mem_harvest_ne {ps : PageSignal} {x : String} (h : x ∈ harvestLinks ps) :
    x ≠ "" :=
  (mem_uniq.mp h).2

/-! ### Facts about the email matcher -/

theorem isDomainChar_of_isAlpha {c : Char} (h : c.isAlpha = true) :
    isDomainChar c = true := by
  simp [isDomainChar, h]

theorem ne_dot_of_isAlpha {c : Char} (h : c.isAlpha = true) : c ≠ '.' := by
  intro heq
  rw [heq] at h
  exact absurd h (by decide)

theorem bestDot_sound {s : List Char} {q p : Nat} (h : bestDot s q = some p) :
    1 ≤ p ∧ s.getD p ('@') = '.' ∧ 2 ≤ lettersFrom s (p + 1) := by
  induction q with
  | zero => simp [bestDot] at h
  | succ q ih =>
    unfold bestDot at h
    by_cases hc : s.getD (q + 1) ('@') = '.' ∧ 2 ≤ lettersFrom s (q + 2)
    · rw [if_pos hc] at h
      injection h with h
      subst h
      exact ⟨Nat.succ_le_succ (Nat.zero_le q), hc.1, hc.2⟩
    · rw [if_neg hc] at h
      exact ih h

theorem getD_dot_lt {s : List Char} {p : Nat} (h : s.getD p ('@') = '.') :
    p < s.length := by
  by_contra hlt
  rw [List.getD_eq_default _ _ (Nat.le_of_not_lt hlt)] at h
  exact absurd h (by decide)

theorem lettersFrom_le (s : List Char) (i : Nat) : lettersFrom s i ≤ s.length - i := by
  unfold lettersFrom
  calc ((s.drop i).takeWhile Char.isAlpha).length ≤ (s.drop i).length :=
        (List.takeWhile_prefix _).length_le
    _ = s.length - i := List.length_drop i s

theorem take_append_len {α : Type} (l₁ l₂ : List α) (i : Nat) :
    (l₁ ++ l₂).take (l₁.length + i) = l₁ ++ l₂.take i := by
  induction l₁ with
  | nil => simp
  | cons a t ih =>
    simp only [List.cons_append, List.length_cons]
    rw [Nat.succ_add, List.take_succ_cons, ih]

theorem take_len_of_prefix {α : Type} {l₁ l₂ : List α} (h : l₁ <+: l₂) :
    l₂.take l₁.length = l₁ := by
  obtain ⟨r, rfl⟩ := h
  exact List.take_left _ _

theorem take_dot_decomp (d tl : List Char) (c : Char) (L : Nat) :
    (d ++ c :: tl).take (d.length + 1 + L) = d ++ c :: tl.take L := by
  rw [show d.length + 1 + L = d.length + (1 + L) from by omega, take_append_len,
    show 1 + L = L + 1 from Nat.add_comm 1 L, List.take_succ_cons]

theorem matchEmailAt_shape {cs : List Char} {n : Nat} (h : matchEmailAt cs = some n) :
    EmailShape (cs.take n) ∧ 0 < n ∧ n ≤ cs.length := by
  simp only [matchEmailAt] at h
  by_cases hcond : cs.takeWhile isLocalChar = [] ∨
      (cs.drop (cs.takeWhile isLocalChar).length).headD (' ') ≠ '@'
  · rw [if_pos hcond] at h
    cases h
  · rw [if_neg hcond] at h
    push_neg at hcond
    obtain ⟨hlocne, hhead⟩ := hcond
    obtain ⟨rest, hrest⟩ := List.takeWhile_prefix (l := cs) isLocalChar
    have hdrop : cs.drop (cs.takeWhile isLocalChar).length = rest := by
      have hdl := List.drop_left (cs.takeWhile isLocalChar) rest
      rw [hrest] at hdl
      exact hdl
    rw [hdrop] at h hhead
    have hrestne : rest ≠ [] := by
      intro h0
      rw [h0] at hhead
      exact absurd hhead (by decide)
    obtain ⟨c, rest2, rfl⟩ := List.exists_cons_of_ne_nil hrestne
    have hc : c = '@' := hhead
    subst hc
    simp only [List.tail_cons] at h
    obtain ⟨r2, hr2⟩ := List.takeWhile_prefix (l := rest2) isDomainChar
    cases hmds : matchDomainSuffix (rest2.takeWhile isDomainChar) with
    | none =>
      rw [hmds] at h
      cases h
    | some k =>
      rw [hmds] at h
      injection h with hn
      unfold matchDomainSuffix at hmds
      cases hbd : bestDot (rest2.takeWhile isDomainChar)
          ((rest2.takeWhile isDomainChar).length - 1) with
      | none =>
        rw [hbd] at hmds
        cases hmds
      | some p =>
        rw [hbd] at hmds
        injection hmds with hk
        obtain ⟨hp1, hdot, hlet⟩ := bestDot_sound hbd
        have hplt : p < (rest2.takeWhile isDomainChar).length := getD_dot_lt hdot
        have hLle := lettersFrom_le (rest2.takeWhile isDomainChar) (p + 1)
        have hkbound : k ≤ (rest2.takeWhile isDomainChar).length := by omega
        obtain ⟨r3, hr3⟩ :=
          List.takeWhile_prefix (l := (rest2.takeWhile isDomainChar).drop (p + 1))
            Char.isAlpha
        have hdomsplit : rest2.takeWhile isDomainChar =
            (rest2.takeWhile isDomainChar).take p ++
              '.' :: (rest2.takeWhile isDomainChar).drop (p + 1) := by
          conv_lhs => rw [← List.take_append_drop p (rest2.takeWhile isDomainChar)]
          congr 1
          rw [List.drop_eq_getElem_cons hplt]
          congr 1
          rw [← List.getD_eq_getElem (rest2.takeWhile isDomainChar) ('@') hplt]
          exact hdot
        have hdlen : ((rest2.takeWhile isDomainChar).take p).length = p := by
          rw [List.length_take]
          exact Nat.min_eq_left (Nat.le_of_lt hplt)
        have hLlen : lettersFrom (rest2.takeWhile isDomainChar) (p + 1) =
            (((rest2.takeWhile isDomainChar).drop (p + 1)).takeWhile Char.isAlpha).length :=
          rfl
        have hdomtake : (rest2.takeWhile isDomainChar).take k =
            (rest2.takeWhile isDomainChar).take p ++
              '.' :: ((rest2.takeWhile isDomainChar).drop (p + 1)).takeWhile Char.isAlpha := by
          have key := take_dot_decomp ((rest2.takeWhile isDomainChar).take p)
            ((rest2.takeWhile isDomainChar).drop (p + 1)) '.'
            (lettersFrom (rest2.takeWhile isDomainChar) (p + 1))
          rw [hdlen, ← hdomsplit] at key
          have htl : ((rest2.takeWhile isDomainChar).drop (p + 1)).take
              (lettersFrom (rest2.takeWhile isDomainChar) (p + 1)) =
              ((rest2.takeWhile isDomainChar).drop (p + 1)).takeWhile Char.isAlpha := by
            rw [hLlen]
            exact take_len_of_prefix (List.takeWhile_prefix _)
          rw [htl] at key
          rw [← hk]
          exact key
        have htake : cs.take n = cs.takeWhile isLocalChar ++
            '@' :: (rest2.takeWhile isDomainChar).take k := by
          conv_lhs => rw [← hrest, ← hn]
          rw [show (cs.takeWhile isLocalChar).length + 1 + k =
              (cs.takeWhile isLocalChar).length + (1 + k) from by omega]
          rw [take_append_len]
          congr 1
          rw [show 1 + k = k + 1 from Nat.add_comm 1 k]
          rw [List.take_succ_cons]
          congr 1
          conv_lhs => rw [← hr2]
          exact List.take_append_of_le_length hkbound
        refine ⟨?_, ?_, ?_⟩
        · refine ⟨cs.takeWhile isLocalChar, (rest2.takeWhile isDomainChar).take p,
            ((rest2.takeWhile isDomainChar).drop (p + 1)).takeWhile Char.isAlpha,
            ?_, hlocne, ?_, ?_, ?_, ?_, ?_⟩
          · rw [htake, hdomtake]
          · intro c hcm
            exact List.mem_takeWhile_imp hcm
          · intro h0
            rw [h0] at hdlen
            simp at hdlen
            omega
          · intro c hcm
            exact List.mem_takeWhile_imp (List.take_subset _ _ hcm)
          · rw [← hLlen]
            exact hlet
          · intro c hcm
            exact List.mem_takeWhile_imp hcm
        · omega
        · have hdomlen : (rest2.takeWhile isDomainChar).length ≤ rest2.length :=
            (List.takeWhile_prefix _).length_le
          have hcslen : cs.length = (cs.takeWhile isLocalChar).length + 1 + rest2.length := by
            conv_lhs => rw [← hrest]
            simp [List.length_append]
            omega
          omega

theorem bestDot_exact {s : List Char} {p₀ : Nat} (hp₀ : 1 ≤ p₀)
    (hdot : s.getD p₀ ('@') = '.') (hlet : 2 ≤ lettersFrom s (p₀ + 1))
    (hno : ∀ i, p₀ < i → s.getD i ('@') ≠ '.') :
    ∀ j, p₀ ≤ j → bestDot s j = some p₀ := by
  intro j
  induction j with
  | zero => intro hj; omega
  | succ q ih =>
    intro hj
    by_cases hpq : p₀ = q + 1
    · subst hpq
      unfold bestDot
      rw [if_pos ⟨hdot, hlet⟩]
    · have hlt : p₀ ≤ q := by omega
      unfold bestDot
      rw [if_neg (fun hc => hno (q + 1) (by omega) hc.1)]
      exact ih hlt

theorem matchDomainSuffix_full {d t : List Char} (hd : d ≠ [])
    (hdc : ∀ c ∈ d, isDomainChar c) (ht2 : 2 ≤ t.length)
    (hta : ∀ c ∈ t, c.isAlpha = true) :
    matchDomainSuffix (d ++ '.' :: t) = some (d ++ '.' :: t).length := by
  have hdlen : 1 ≤ d.length := by
    cases d with
    | nil => exact absurd rfl hd
    | cons a l => simp
  have hdrop : (d ++ '.' :: t).drop (d.length + 1) = t := by
    have h2 : ((d ++ ['.']) ++ t).drop ((d ++ ['.']).length) = t := List.drop_left _ _
    rw [show (d ++ ['.']) ++ t = d ++ '.' :: t from by simp,
      show (d ++ ['.']).length = d.length + 1 from by simp] at h2
    exact h2
  have hlet : lettersFrom (d ++ '.' :: t) (d.length + 1) = t.length := by
    unfold lettersFrom
    rw [hdrop, List.takeWhile_eq_self_iff.mpr hta]
  have hdot : (d ++ '.' :: t).getD d.length ('@') = '.' := by
    rw [List.getD_append_right _ _ _ _ (Nat.le_refl _)]
    simp
  have hno : ∀ i, d.length < i → (d ++ '.' :: t).getD i ('@') ≠ '.' := by
    intro i hi
    rw [List.getD_append_right _ _ _ _ (Nat.le_of_lt hi)]
    have h1 : 1 ≤ i - d.length := by omega
    rw [show i - d.length = (i - d.length - 1) + 1 from by omega, List.getD_cons_succ]
    by_cases hm : i - d.length - 1 < t.length
    · rw [List.getD_eq_getElem _ _ hm]
      exact ne_dot_of_isAlpha (hta _ (List.getElem_mem hm))
    · rw [List.getD_eq_default _ _ (Nat.le_of_not_lt hm)]
      decide
  have hlen : (d ++ '.' :: t).length = d.length + 1 + t.length := by
    simp [List.length_append]
    omega
  have hbd : bestDot (d ++ '.' :: t) ((d ++ '.' :: t).length - 1) = some d.length := by
    apply bestDot_exact hdlen hdot (by rw [hlet]; exact ht2) hno
    omega
  simp only [matchDomainSuffix, hbd]
  rw [hlet, hlen]

theorem emailShape_rematch {cs : List Char} (h : EmailShape cs) :
    matchEmailAt cs = some cs.length := by
  obtain ⟨l, d, t, rfl, hl, hlc, hd, hdc, ht2, hta⟩ := h
  have hloc : (l ++ '@' :: (d ++ '.' :: t)).takeWhile isLocalChar = l := by
    rw [List.takeWhile_append]
    rw [List.takeWhile_eq_self_iff.mpr (fun x hx => hlc x hx)]
    rw [if_pos rfl, List.takeWhile_cons, if_neg (by decide), List.append_nil]
  have hdrop : (l ++ '@' :: (d ++ '.' :: t)).drop l.length = '@' :: (d ++ '.' :: t) :=
    List.drop_left _ _
  have hdom : (d ++ '.' :: t).takeWhile isDomainChar = d ++ '.' :: t := by
    rw [List.takeWhile_eq_self_iff]
    intro x hx
    rcases List.mem_append.mp hx with hx | hx
    · exact hdc x hx
    · rcases List.mem_cons.mp hx with rfl | hx
      · decide
      · exact isDomainChar_of_isAlpha (hta x hx)
  simp only [matchEmailAt]
  rw [hloc, hdrop]
  rw [if_neg (by
    push_neg
    refine ⟨hl, ?_⟩
    simp)]
  simp only [List.tail_cons]
  rw [hdom, matchDomainSuffix_full hd hdc ht2 hta]
  simp only [List.length_append, List.length_cons, Option.some.injEq]
  omega

theorem emailShape_map_lower {cs : List Char} (h : EmailShape cs) :
    EmailShape (cs.map lowerChar) := by
  obtain ⟨l, d, t, rfl, hl, hlc, hd, hdc, ht2, hta⟩ := h
  have hat : lowerChar ('@') = '@' := by decide
  have hdt : lowerChar ('.') = '.' := by decide
  refine ⟨l.map lowerChar, d.map lowerChar, t.map lowerChar, ?_, ?_, ?_, ?_, ?_, ?_, ?_⟩
  · simp [List.map_append, hat, hdt]
  · simpa using hl
  · intro c hc
    obtain ⟨a, ha, rfl⟩ := List.mem_map.mp hc
    exact isLocalChar_lowerChar (hlc a ha)
  · simpa using hd
  · intro c hc
    obtain ⟨a, ha, rfl⟩ := List.mem_map.mp hc
    exact isDomainChar_lowerChar (hdc a ha)
  · simpa using ht2
  · intro c hc
    obtain ⟨a, ha, rfl⟩ := List.mem_map.mp hc
    exact isAlpha_lowerChar (hta a ha)

theorem scanEmailsAux_shape :
    ∀ (fuel : Nat) (cs m : List Char), m ∈ scanEmailsAux fuel cs → EmailShape m := by
  intro fuel
  induction fuel with
  | zero =>
    intro cs m hm
    simp [scanEmailsAux] at hm
  | succ fuel ih =>
    intro cs m hm
    cases cs with
    | nil => simp [scanEmailsAux] at hm
    | cons c rest =>
      unfold scanEmailsAux at hm
      cases hma : matchEmailAt (c :: rest) with
      | some n =>
        simp only [hma, List.mem_cons] at hm
        rcases hm with rfl | hm
        · exact (matchEmailAt_shape hma).1
        · exact ih _ _ hm
      | none =>
        simp only [hma] at hm
        exact ih _ _ hm

theorem emailMatches_shape {text : String} {m : String} (h : m ∈ emailMatches text) :
    EmailShape m.data := by
  obtain ⟨cs, hcs, rfl⟩ := List.mem_map.mp h
  exact scanEmailsAux_shape _ _ _ hcs

theorem emailsLowered_shape {text : String} {e : String} (h : e ∈ emailsLowered text) :
    EmailShape e.data ∧ lowerStr e = e ∧ e ≠ "" := by
  obtain ⟨m, hm, rfl⟩ := List.mem_map.mp h
  have hs := emailMatches_shape hm
  have hmap : EmailShape (lowerStr m).data := emailShape_map_lower hs
  refine ⟨hmap, lowerStr_lowerStr m, ?_⟩
  obtain ⟨l, d, t, heq, hl, -⟩ := hmap
  intro h0
  have hdata : (lowerStr m).data = [] := by
    rw [h0]
  rw [heq] at hdata
  rcases List.append_eq_nil.mp hdata with ⟨-, hcons⟩
  cases hcons

theorem emailShapeB_of_shape {e : String} (h : EmailShape e.data) :
    emailShapeB e = true := by
  unfold emailShapeB
  rw [emailShape_rematch h]
  simp

theorem uniq_emailsLowered_eq_nil {text : String} :
    uniq (emailsLowered text) = [] ↔ emailsLowered text = [] := by
  constructor
  · intro h
    rw [uniq_eq_nil_iff] at h
    cases hE : emailsLowered text with
    | nil => rfl
    | cons e es =>
      have he : e ∈ emailsLowered text := by
        rw [hE]
        exact List.mem_cons_self _ _
      exact absurd (h e he) (emailsLowered_shape he).2.2
  · intro h
    rw [h]
    rfl

/-! ## Claim theorems -/

/-- C1.  Every harvested link is routed into exactly one of the four
outcomes: membership in `websites` is equivalent to classification as a
website, membership in `otherLinks` to classification as unparseable, any
social-slot entry holding the link classifies to exactly that platform
label, an ignored link appears in no output collection, and a
platform-classified link appears in neither `websites` nor `otherLinks` —
so the partition over the four-valued `classify` is complete and
disjoint. -/
theorem c1_partition (f : String → Option String) (ps : PageSignal) (href : String)
    (h : href ∈ harvestLinks ps) :
    (href ∈ (extractContactInfoFromPage f ps).websites ↔
        classify f href = LinkType.website) ∧
    (href ∈ (extractContactInfoFromPage f ps).otherLinks ↔
        classify f href = LinkType.other) ∧
    (∀ qv ∈ (extractContactInfoFromPage f ps).social,
        qv.2 = href → classify f href = LinkType.plat qv.1) ∧
    (classify f href = LinkType.ignore →
        href ∉ (extractContactInfoFromPage f ps).websites ∧
        href ∉ (extractContactInfoFromPage f ps).otherLinks ∧
        ∀ qv ∈ (extractContactInfoFromPage f ps).social, qv.2 ≠ href) ∧
    (∀ p : Platform, classify f href = LinkType.plat p →
        href ∉ (extractContactInfoFromPage f ps).websites ∧
        href ∉ (extractContactInfoFromPage f ps).otherLinks) := by
  have hne : href ≠ "" := mem_harvest_ne h
  have hweb : href ∈ (extractContactInfoFromPage f ps).websites ↔
      classify f href = LinkType.website := by
    rw [extract_eq]
    show href ∈ uniq ((processLinks f (harvestLinks ps)).websites) ↔ _
    rw [processLinks_websites]
    constructor
    · intro hm
      have := (mem_uniq.mp hm).1
      exact of_decide_eq_true (List.mem_filter.mp this).2
    · intro hcl
      exact mem_uniq.mpr ⟨List.mem_filter.mpr ⟨h, decide_eq_true hcl⟩, hne⟩
  have hoth : href ∈ (extractContactInfoFromPage f ps).otherLinks ↔
      classify f href = LinkType.other := by
    rw [extract_eq]
    show href ∈ uniq ((processLinks f (harvestLinks ps)).otherLinks) ↔ _
    rw [processLinks_otherLinks]
    constructor
    · intro hm
      have := (mem_uniq.mp hm).1
      exact of_decide_eq_true (List.mem_filter.mp this).2
    · intro hcl
      exact mem_uniq.mpr ⟨List.mem_filter.mpr ⟨h, decide_eq_true hcl⟩, hne⟩
  have hsoc : ∀ qv ∈ (extractContactInfoFromPage f ps).social,
      qv.2 = href → classify f href = LinkType.plat qv.1 := by
    intro qv hqv heq
    have := (processLinks_social_mem (by rw [extract_eq] at hqv; exact hqv)).2
    rw [heq] at this
    exact this
  refine ⟨hweb, hoth, hsoc, ?_, ?_⟩
  · intro hig
    refine ⟨fun hm => ?_, fun hm => ?_, fun qv hqv heq => ?_⟩
    · rw [hweb.mp hm] at hig
      cases hig
    · rw [hoth.mp hm] at hig
      cases hig
    · rw [hsoc qv hqv heq] at hig
      cases hig
  · intro p hp
    constructor
    · intro hm
      rw [hweb.mp hm] at hp
      cases hp
    · intro hm
      rw [hoth.mp hm] at hp
      cases hp

/-- The claim C1 instantiated on the spec's scenario page
`["not a url", "https://example.com"]` at the unparseable link. -/
theorem c1_partition_witness :
    ("not a url") ∈ harvestLinks psMixed ∧
    (("not a url") ∈ (extractContactInfoFromPage jsHostname psMixed).websites ↔
        classify jsHostname ("not a url") = LinkType.website) ∧
    (("not a url") ∈ (extractContactInfoFromPage jsHostname psMixed).otherLinks ↔
        classify jsHostname ("not a url") = LinkType.other) ∧
    (∀ qv ∈ (extractContactInfoFromPage jsHostname psMixed).social,
        qv.2 = ("not a url") → classify jsHostname ("not a url") = LinkType.plat qv.1) ∧
    (classify jsHostname ("not a url") = LinkType.ignore →
        ("not a url") ∉ (extractContactInfoFromPage jsHostname psMixed).websites ∧
        ("not a url") ∉ (extractContactInfoFromPage jsHostname psMixed).otherLinks ∧
        ∀ qv ∈ (extractContactInfoFromPage jsHostname psMixed).social,
          qv.2 ≠ ("not a url")) ∧
    (∀ p : Platform, classify jsHostname ("not a url") = LinkType.plat p →
        ("not a url") ∉ (extractContactInfoFromPage jsHostname psMixed).websites ∧
        ("not a url") ∉ (extractContactInfoFromPage jsHostname psMixed).otherLinks) :=
  ⟨by decide, c1_partition jsHostname psMixed ("not a url") (by decide)⟩

/-- C2.  For every platform label the social slot holds exactly the first
URL in harvested order classifying to that label (`find?` over the
deduplicated harvest), and the slots are pairwise distinct keys, so the map
holds at most one URL per label and later same-label URLs never replace the
first. -/
theorem c2_first_wins (f : String → Option String) (ps : PageSignal) (p : Platform) :
    lookupSocial p (extractContactInfoFromPage f ps).social =
      (harvestLinks ps).find? (fun h => decide (classify f h = LinkType.plat p)) ∧
    ((extractContactInfoFromPage f ps).social.map Prod.fst).Nodup := by
  rw [extract_eq]
  exact ⟨processLinks_lookup f p (harvestLinks ps) (fun x hx => mem_harvest_ne hx),
    processLinks_keys_nodup f (harvestLinks ps)⟩

/-- C3.  The engine is total and well-formed on every input: the output
lists are duplicate-free, the counts agree with the harvest and the social
map, a malformed (unparseable) structured-data block is skipped without
affecting anything else, and the empty input yields the all-empty result. -/
theorem c3_robustness (f : String → Option String) (ps : PageSignal) :
    (extractContactInfoFromPage f ps).emails.Nodup ∧
    (extractContactInfoFromPage f ps).websites.Nodup ∧
    (extractContactInfoFromPage f ps).otherLinks.Nodup ∧
    ((extractContactInfoFromPage f ps).social.map Prod.fst).Nodup ∧
    (extractContactInfoFromPage f ps).totalLinksFound = (harvestLinks ps).length ∧
    (extractContactInfoFromPage f ps).socialLinksFound =
      (extractContactInfoFromPage f ps).social.length ∧
    extractContactInfoFromPage f
        { ps with structuredBlocks := none :: ps.structuredBlocks } =
      extractContactInfoFromPage f ps ∧
    extractContactInfoFromPage f
        { text := "", anchorLinks := [], platformLinks := [], structuredBlocks := [],
          buttonTexts := [] } =
      { emails := [], social := [], websites := [], otherLinks := [],
        hasBusinessInquiry := false, totalLinksFound := 0, socialLinksFound := 0 } := by
  refine ⟨nodup_uniq _, nodup_uniq _, nodup_uniq _,
    processLinks_keys_nodup f (harvestLinks ps), rfl, rfl, ?_, rfl⟩
  have hsame : extractSameAs (none :: ps.structuredBlocks) =
      extractSameAs ps.structuredBlocks := by
    simp [extractSameAs]
  have hharv : harvestLinks { ps with structuredBlocks := none :: ps.structuredBlocks } =
      harvestLinks ps := by
    unfold harvestLinks allLinksOf
    rw [hsame]
  rw [extract_eq, extract_eq, hharv]
  rfl

/-- C7.  On link sources free of empty strings, the harvested list is
exactly the fixed-order concatenation anchors ++ platform links ++
structured-data links, deduplicated by exact string equality keeping first
occurrences: it is duplicate-free, an order-preserving sublist of the
concatenation, and holds exactly the concatenation's elements. -/
theorem c7_harvest_merge (ps : PageSignal)
    (h : ∀ x ∈ ps.anchorLinks ++ ps.platformLinks ++ extractSameAs ps.structuredBlocks,
      x ≠ "") :
    harvestLinks ps =
      dedupFirst (ps.anchorLinks ++ ps.platformLinks ++ extractSameAs ps.structuredBlocks) ∧
    (harvestLinks ps).Nodup ∧
    (harvestLinks ps).Sublist
      (ps.anchorLinks ++ ps.platformLinks ++ extractSameAs ps.structuredBlocks) ∧
    ∀ x, x ∈ harvestLinks ps ↔
      x ∈ ps.anchorLinks ++ ps.platformLinks ++ extractSameAs ps.structuredBlocks := by
  have hanch : ∀ x ∈ ps.anchorLinks, x ≠ "" := by
    intro x hx
    exact h x (List.mem_append_left _ (List.mem_append_left _ hx))
  have hplat : ∀ x ∈ ps.platformLinks, x ≠ "" := by
    intro x hx
    exact h x (List.mem_append_left _ (List.mem_append_right _ hx))
  have hall : allLinksOf ps =
      ps.anchorLinks ++ ps.platformLinks ++ extractSameAs ps.structuredBlocks := by
    unfold allLinksOf
    rw [List.filter_eq_self.mpr (fun a ha => decide_eq_true (hanch a ha)),
      List.filter_eq_self.mpr (fun a ha => decide_eq_true (hplat a ha)),
      List.append_assoc]
  have hharv : harvestLinks ps =
      uniq (ps.anchorLinks ++ ps.platformLinks ++ extractSameAs ps.structuredBlocks) := by
    unfold harvestLinks
    rw [hall]
  refine ⟨?_, ?_, ?_, ?_⟩
  · rw [hharv]
    exact uniq_eq_dedupFirst h
  · rw [hharv]
    exact nodup_uniq _
  · rw [hharv]
    exact uniq_sublist _
  · intro x
    rw [hharv]
    constructor
    · intro hx
      exact (mem_uniq.mp hx).1
    · intro hx
      exact mem_uniq.mpr ⟨hx, h x hx⟩

/-- The claim C7 instantiated on a page whose sources overlap and hold a
trailing-slash variant: the harvest keeps the variant as a distinct entry
and first-seen order. -/
theorem c7_harvest_merge_witness :
    (∀ x ∈ psDup.anchorLinks ++ psDup.platformLinks ++ extractSameAs psDup.structuredBlocks,
      x ≠ "") ∧
    harvestLinks psDup = ["https://a.com", "https://a.com/", "https://b.com"] := by
  refine ⟨by decide, ?_⟩
  have hthm := c7_harvest_merge psDup (by decide)
  rw [hthm.1]
  decide

/-- C8 counterexample.  A structured-data record whose `sameAs` is the
single string `""` contributes nothing — the JS truthiness guard
`if (o.sameAs)` drops it — so "a single string contributes exactly that one
string" fails at this input. -/
theorem c8_counterexample :
    extractSameAs [some (LdBlock.one { sameAs := some (SameAsVal.single "") })] ≠
      [""] := by decide

/-- C8 (amended).  Blocks are parsed independently — a failed block only
removes itself — a `sameAs` holding a single non-empty string contributes
exactly that string, and a `sameAs` holding a list contributes its elements
in source order (an empty single string is dropped by the truthiness
guard). -/
theorem c8_block_independence :
    (∀ b1 b2 : List (Option LdBlock),
      extractSameAs (b1 ++ none :: b2) = extractSameAs b1 ++ extractSameAs b2) ∧
    (∀ s : String, s ≠ "" → ∀ rest : List (Option LdBlock),
      extractSameAs (some (LdBlock.one { sameAs := some (SameAsVal.single s) }) :: rest) =
        s :: extractSameAs rest) ∧
    (∀ ss : List String, ∀ rest : List (Option LdBlock),
      extractSameAs (some (LdBlock.one { sameAs := some (SameAsVal.multi ss) }) :: rest) =
        ss ++ extractSameAs rest) ∧
    (∀ ss : List String, ∀ rs : List LdRecord, ∀ rest : List (Option LdBlock),
      extractSameAs (some (LdBlock.arr ({ sameAs := some (SameAsVal.multi ss) } :: rs)) :: rest) =
        ss ++ extractSameAs (some (LdBlock.arr rs) :: rest)) := by
  refine ⟨?_, ?_, ?_, ?_⟩
  · intro b1 b2
    simp [extractSameAs, List.filterMap_append]
  · intro s hs rest
    simp [extractSameAs, blockSameAs, recSameAs, sameAsTruthy, sameAsList, hs]
  · intro ss rest
    simp [extractSameAs, blockSameAs, recSameAs, sameAsTruthy, sameAsList]
  · intro ss rs rest
    simp [extractSameAs, blockSameAs, recSameAs, sameAsTruthy, sameAsList]

/-- The amended C8 applied at the spec's scenario block
`{"sameAs": ["https://twitter.com/z"]}` written as a single string. -/
theorem c8_block_independence_witness :
    extractSameAs
        [some (LdBlock.one { sameAs := some (SameAsVal.single ("https://twitter.com/z")) })] =
      ["https://twitter.com/z"] :=
  (c8_block_independence.2.1 ("https://twitter.com/z") (by decide) []).trans rfl

/-- C9 counterexample.  Two inputs with identical `emails`, `social`,
`websites` and `otherLinks` but different `totalLinksFound`: an ignored
host-site link is counted by `totalLinksFound` yet appears in no output
field, so the counts are not derivable from the four fields. -/
theorem c9_counterexample :
    (extractContactInfoFromPage jsHostname psOne).emails =
      (extractContactInfoFromPage jsHostname psTwo).emails ∧
    (extractContactInfoFromPage jsHostname psOne).social =
      (extractContactInfoFromPage jsHostname psTwo).social ∧
    (extractContactInfoFromPage jsHostname psOne).websites =
      (extractContactInfoFromPage jsHostname psTwo).websites ∧
    (extractContactInfoFromPage jsHostname psOne).otherLinks =
      (extractContactInfoFromPage jsHostname psTwo).otherLinks ∧
    (extractContactInfoFromPage jsHostname psOne).totalLinksFound ≠
      (extractContactInfoFromPage jsHostname psTwo).totalLinksFound := by decide

/-- C9 (amended).  `socialLinksFound` is derived from the output: it is the
number of platform labels present in `social` (whose keys are
duplicate-free); `totalLinksFound` instead equals the length of the
deduplicated harvest, which also counts silently discarded host-site links
and is therefore not a function of the four output fields. -/
theorem c9_counts (f : String → Option String) (ps : PageSignal) :
    (extractContactInfoFromPage f ps).socialLinksFound =
      ((extractContactInfoFromPage f ps).social.map Prod.fst).length ∧
    ((extractContactInfoFromPage f ps).social.map Prod.fst).Nodup ∧
    (extractContactInfoFromPage f ps).totalLinksFound = (harvestLinks ps).length := by
  refine ⟨?_, processLinks_keys_nodup f (harvestLinks ps), rfl⟩
  rw [extract_eq]
  exact (List.length_map _ _).symm

/-- C10.  An empty-string entry in the harvested links is silently filtered
out before deduplication and classification: inserting one anywhere in the
anchor list leaves the whole result (including `totalLinksFound`)
unchanged, and the empty string never appears in `websites`, `otherLinks`
or the social slots. -/
theorem c10_empty_filtered (f : String → Option String) (ps : PageSignal)
    (l1 l2 : List String) :
    extractContactInfoFromPage f { ps with anchorLinks := l1 ++ ("") :: l2 } =
      extractContactInfoFromPage f { ps with anchorLinks := l1 ++ l2 } ∧
    ("") ∉ (extractContactInfoFromPage f ps).websites ∧
    ("") ∉ (extractContactInfoFromPage f ps).otherLinks ∧
    ∀ qv ∈ (extractContactInfoFromPage f ps).social, qv.2 ≠ ("") := by
  refine ⟨?_, ?_, ?_, ?_⟩
  · have hfil : (l1 ++ ("") :: l2).filter (fun s => s ≠ "") =
        (l1 ++ l2).filter (fun s => s ≠ "") := by
      simp [List.filter_append]
    have hmail : (l1 ++ ("") :: l2).any (fun h => strStarts h ("mailto:")) =
        (l1 ++ l2).any (fun h => strStarts h ("mailto:")) := by
      have : strStarts ("") ("mailto:") = false := by decide
      simp [List.any_append, this]
    have hharv : harvestLinks { ps with anchorLinks := l1 ++ ("") :: l2 } =
        harvestLinks { ps with anchorLinks := l1 ++ l2 } := by
      unfold harvestLinks allLinksOf
      rw [hfil]
    have hbiz : hasBusinessInquiryOf { ps with anchorLinks := l1 ++ ("") :: l2 }
          (emailsLowered ps.text) =
        hasBusinessInquiryOf { ps with anchorLinks := l1 ++ l2 }
          (emailsLowered ps.text) := by
      unfold hasBusinessInquiryOf
      rw [hmail]
    rw [extract_eq, extract_eq, hharv, hbiz]
  · intro hm
    exact (mem_uniq.mp (by rw [extract_eq] at hm; exact hm)).2 rfl
  · intro hm
    exact (mem_uniq.mp (by rw [extract_eq] at hm; exact hm)).2 rfl
  · intro qv hqv hv
    have := (processLinks_social_mem (by rw [extract_eq] at hqv; exact hqv)).1
    exact mem_harvest_ne (hv ▸ this) rfl

/-- C6 counterexample.  With no API credential configured the collaborator
returns empty subject and first line, not the deterministic templated
fallback the claim describes. -/
theorem c6_counterexample :
    generatePersonalizedOutreach ("") sampleChannel UpstreamOutcome.failure ≠
      fallbackOutreach sampleChannel := by decide

/-- C6 (amended).  The collaborator never propagates a failure: with no
credential configured it returns empty subject and first lines, and with a
credential configured it returns the deterministic templated fallback —
derived from the first recent-video title and the first name — whenever the
upstream language-model call fails. -/
theorem c6_outreach_degradation :
    (∀ (d : ChannelData) (u : UpstreamOutcome),
      generatePersonalizedOutreach ("") d u = { subjectLine := "", firstLine := "" }) ∧
    (∀ (k : String) (d : ChannelData), k ≠ "" →
      generatePersonalizedOutreach k d UpstreamOutcome.failure = fallbackOutreach d) := by
  constructor
  · intro d u
    unfold generatePersonalizedOutreach
    rw [if_pos rfl]
  · intro k d hk
    unfold generatePersonalizedOutreach
    rw [if_neg hk]

/-- The amended C6 applied with a configured credential and a failing
upstream call on the sample channel: the result is the evaluated template. -/
theorem c6_outreach_degradation_witness :
    generatePersonalizedOutreach ("sk-test") sampleChannel UpstreamOutcome.failure =
      { subjectLine := "Your My Dubai video"
        firstLine := "Hey Tech, watched your recent video about My Dubai Vlog, and noticed that you have a unique approach to your content..." } :=
  (c6_outreach_degradation.2 ("sk-test") sampleChannel (by decide)).trans (by decide)

/-- C4.  When the lower-cased regex matches of the page text are pairwise
distinct, the emails output is exactly that match list: one entry per match
(N matches give N entries, in first-appearance order), every entry is
lower-cased (lower-casing it again changes nothing) and fully matches the
canonical email pattern. -/
theorem c4_email_extraction (f : String → Option String) (ps : PageSignal)
    (h : (emailsLowered ps.text).Nodup) :
    (extractContactInfoFromPage f ps).emails = emailsLowered ps.text ∧
    (extractContactInfoFromPage f ps).emails.length = (emailMatches ps.text).length ∧
    ∀ e ∈ (extractContactInfoFromPage f ps).emails,
      lowerStr e = e ∧ emailShapeB e = true := by
  have hall : ∀ x ∈ emailsLowered ps.text, x ≠ "" :=
    fun x hx => (emailsLowered_shape hx).2.2
  have hemails : (extractContactInfoFromPage f ps).emails = emailsLowered ps.text := by
    rw [extract_eq]
    exact uniq_eq_self h hall
  refine ⟨hemails, ?_, ?_⟩
  · rw [hemails]
    exact List.length_map _ _
  · intro e he
    rw [hemails] at he
    obtain ⟨hs, hlow, -⟩ := emailsLowered_shape he
    exact ⟨hlow, emailShapeB_of_shape hs⟩

/-- The claim C4 applied to a page text with two distinct mixed-case
emails: both are returned, lower-cased, in order of appearance. -/
theorem c4_email_extraction_witness :
    (emailsLowered ("write to a@b.com or X@Y.net")).Nodup ∧
    (extractContactInfoFromPage jsHostname
        { text := "write to a@b.com or X@Y.net", anchorLinks := [], platformLinks := [],
          structuredBlocks := [], buttonTexts := [] }).emails =
      ["a@b.com", "x@y.net"] := by
  refine ⟨by decide, ?_⟩
  have h := c4_email_extraction jsHostname
    { text := "write to a@b.com or X@Y.net", anchorLinks := [], platformLinks := [],
      structuredBlocks := [], buttonTexts := [] } (by decide)
  rw [h.1]
  decide

/-- C5.  The contactability flag is true exactly when one of the four
conditions holds: a fixed business-intent phrase occurs as a substring of
the lower-cased page text, a `mailto:`-scheme link sits in the anchor
inventory, some button/anchor caption contains (case-insensitively)
"business", "inquiry" or "contact", or at least one email was extracted;
in particular a non-empty emails output alone forces the flag true. -/
theorem c5_business_flag (f : String → Option String) (ps : PageSignal) :
    ((extractContactInfoFromPage f ps).hasBusinessInquiry = true ↔
      ((∃ t ∈ businessTexts, t.data <:+: (lowerStr ps.text).data) ∨
       (∃ a ∈ ps.anchorLinks, ("mailto:").data <+: a.data) ∨
       (∃ cap ∈ ps.buttonTexts,
         ("business").data <:+: (lowerStr cap).data ∨
         ("inquiry").data <:+: (lowerStr cap).data ∨
         ("contact").data <:+: (lowerStr cap).data) ∨
       (extractContactInfoFromPage f ps).emails ≠ [])) ∧
    ((extractContactInfoFromPage f ps).emails ≠ [] →
      (extractContactInfoFromPage f ps).hasBusinessInquiry = true) := by
  have hbridge : 0 < (emailsLowered ps.text).length ↔
      uniq (emailsLowered ps.text) ≠ [] := by
    rw [List.length_pos]
    exact (not_congr uniq_emailsLowered_eq_nil).symm
  have hmain : (extractContactInfoFromPage f ps).hasBusinessInquiry = true ↔
      ((∃ t ∈ businessTexts, t.data <:+: (lowerStr ps.text).data) ∨
       (∃ a ∈ ps.anchorLinks, ("mailto:").data <+: a.data) ∨
       (∃ cap ∈ ps.buttonTexts,
         ("business").data <:+: (lowerStr cap).data ∨
         ("inquiry").data <:+: (lowerStr cap).data ∨
         ("contact").data <:+: (lowerStr cap).data) ∨
       (extractContactInfoFromPage f ps).emails ≠ []) := by
    rw [extract_eq]
    show hasBusinessInquiryOf ps (emailsLowered ps.text) = true ↔ _
    unfold hasBusinessInquiryOf
    simp only [Bool.or_eq_true, List.any_eq_true, strIncludes_iff, strStarts_iff,
      decide_eq_true_eq]
    rw [hbridge]
    constructor
    · rintro (((hA | hB) | ⟨cap, hcap, hor⟩) | hE)
      · exact Or.inl hA
      · exact Or.inr (Or.inl hB)
      · exact Or.inr (Or.inr (Or.inl ⟨cap, hcap, or_assoc.mp hor⟩))
      · exact Or.inr (Or.inr (Or.inr hE))
    · rintro (hA | hB | ⟨cap, hcap, hor⟩ | hE)
      · exact Or.inl (Or.inl (Or.inl hA))
      · exact Or.inl (Or.inl (Or.inr hB))
      · exact Or.inl (Or.inr ⟨cap, hcap, or_assoc.mpr hor⟩)
      · exact Or.inr hE
  exact ⟨hmain, fun hne => hmain.mpr (Or.inr (Or.inr (Or.inr hne)))⟩

end YTFinder
